import Mathlib

/-!
Verification of the schema-driven field transformation engine of
`bottle_simple_admin.py` (jefmud/bottle_simple_admin).

The development shallowly embeds the core pure functions of the source file:
`_merge_dicts`, `_nest_value`, `expand_fields`, `get_nested_value`,
`_schema_transform`, and the pure data pipeline of `Admin.edit_fields` (POST
branch), together with faithful models of the Python string primitives they
use (`str.split`, `str.strip`, `str.title`).

Python `dict`s are modelled as ordered association lists (`Dict`); Python's
`==` on dicts ignores insertion order, so claims stated with `==` are settled
either through a fixed canonical order (a determinization of the source's
iteration over `set(d1) | set(d2)`, which preserves the key-value mapping) or
through key-by-key `lookup` facts.
-/

/-- Model of Python's notion of whitespace used by `str.strip()`. -/
def pyIsSpace (c : Char) : Bool :=
  c = ' ' || c = '\t' || c = '\n' || c = '\r' || c = '\x0b' || c = '\x0c'

/-- Model of Python `str.strip()` on a character list: drop whitespace from
both ends. -/
def pyStripL (l : List Char) : List Char :=
  ((l.dropWhile pyIsSpace).reverse.dropWhile pyIsSpace).reverse

/-- Model of Python `str.strip()`. -/
def pyStrip (s : String) : String := ⟨pyStripL s.data⟩

/-- Model of Python `str.split(sep)` with an explicit one-character separator:
never returns an empty list; `"".split(sep) == ['']`. -/
def pySplitList (sep : Char) : List Char → List (List Char)
  | [] => [[]]
  | c :: rest =>
    match pySplitList sep rest with
    | [] => [[]]
    | h :: t => if c = sep then [] :: h :: t else (c :: h) :: t

/-- Model of Python `name.split('.')`. -/
def pySplitDot (s : String) : List String :=
  (pySplitList '.' s.data).map (fun l => ⟨l⟩)

/-- Model of Python `line.split(':')`, as used on schema lines. -/
def colonParts (line : String) : List String :=
  (pySplitList ':' line.data).map (fun l => ⟨l⟩)

/-- Model of Python `text.split('\n')`, as used on the schema text blob. -/
def newlineParts (text : String) : List String :=
  (pySplitList '\n' text.data).map (fun l => ⟨l⟩)

/-- Helper for `pyTitle`: the Boolean records whether the previous character
was alphabetic (Python: cased). -/
def pyTitleGo : List Char → Bool → List Char
  | [], _ => []
  | c :: rest, prevAlpha =>
    if c.isAlpha then (if prevAlpha then c.toLower else c.toUpper) :: pyTitleGo rest true
    else c :: pyTitleGo rest false

/-- Model of Python `str.title()` (ASCII fragment): the first letter of every
alphabetic run is uppercased, the rest lowercased. -/
def pyTitle (s : String) : String := ⟨pyTitleGo s.data false⟩

mutual
/-- A value stored in a document: an integer scalar, a string scalar, or a
nested dictionary. Mirrors the JSON-like values handled by the source. -/
inductive Val where
  | i : Int → Val
  | s : String → Val
  | d : Dict → Val
deriving DecidableEq
/-- A Python `dict` from the source, modelled as an insertion-ordered
association list. -/
inductive Dict where
  | nil : Dict
  | cons : String → Val → Dict → Dict
deriving DecidableEq
end

/-- True exactly on dictionary values; model of `isinstance(v, dict)`. -/
def Val.isDict : Val → Bool
  | .d _ => true
  | _ => false

namespace Dict

/-- First binding of key `k`, if any; model of Python key lookup. -/
def lookup : Dict → String → Option Val
  | .nil, _ => none
  | .cons k' v rest, k => if k' = k then some v else lookup rest k

/-- Model of Python `k in d`. -/
def containsKey (d : Dict) (k : String) : Bool :=
  (d.lookup k).isSome

/-- Model of Python `d.get(k, dflt)`. -/
def get (d : Dict) (k : String) (dflt : Val) : Val :=
  match d.lookup k with
  | some v => v
  | none => dflt

/-- Model of Python `d.pop(k)` (ignoring the returned value): remove the
binding of `k`. -/
def erase : Dict → String → Dict
  | .nil, _ => .nil
  | .cons k' v rest, k => if k' = k then erase rest k else .cons k' v (erase rest k)

/-- Model of Python `d[k] = v`: update in place if the key is present,
otherwise append the new binding at the end. -/
def setKey : Dict → String → Val → Dict
  | .nil, k, v => .cons k v .nil
  | .cons k' v' rest, k, v =>
    if k' = k then .cons k' v rest else .cons k' v' (setKey rest k v)

/-- Model of Python `d == {}`. -/
def isNil : Dict → Bool
  | .nil => true
  | .cons _ _ _ => false

end Dict

mutual
/-- Value-level behaviour of `_merge_dicts` at a key present in both inputs:
if both values are dicts the merge recurses, otherwise the second value
overrides the first (source lines 712-720). -/
def mergeVal : Val → Val → Val
  | .d a, .d b => .d (mergeD a b)
  | _, b => b
/-- Embedding of `dict(_merge_dicts(d1, d2))` (source lines 705-724). The
source iterates over `set(dict1.keys()).union(dict2.keys())` in unspecified
order; this embedding fixes the order (keys of `d1` first, then the remaining
keys of `d2`) while computing the identical key-value mapping: shared keys
merge recursively when both values are dicts and otherwise take `d2`'s value;
keys of a single side are carried unchanged. -/
def mergeD : Dict → Dict → Dict
  | .nil, d2 => d2
  | .cons k v rest, d2 =>
    match d2.lookup k with
    | some v2 => .cons k (mergeVal v v2) (mergeD rest (d2.erase k))
    | none => .cons k v (mergeD rest d2)
end

/-- Embedding of `_nest_value(name, value)` (source lines 737-759):
`parts = name.strip().split('.')`; 1, 2 or 3 parts build the corresponding
chain of single-key dicts; otherwise `ValueError("Schmema depth exceeds
maximum limit of 3")` is raised (modelled as `Except.error`; a split never
yields zero parts). -/
def _nest_value (name : String) (value : Val) : Except String Dict :=
  match pySplitDot (pyStrip name) with
  | [p0] => .ok (.cons p0 value .nil)
  | [p0, p1] => .ok (.cons p0 (.d (.cons p1 value .nil)) .nil)
  | [p0, p1, p2] => .ok (.cons p0 (.d (.cons p1 (.d (.cons p2 value .nil)) .nil)) .nil)
  | _ => .error "Schmema depth exceeds maximum limit of 3"

/-- The loop body of `expand_fields` (source lines 726-735), with an explicit
accumulator: `data = dict(_merge_dicts(data, _nest_value(name, value)))` for
each entry; a `ValueError` from `_nest_value` aborts the whole expansion. -/
def expandGo : Dict → List (String × Val) → Except String Dict
  | acc, [] => .ok acc
  | acc, (name, value) :: rest =>
    match _nest_value name value with
    | .error e => .error e
    | .ok frag => expandGo (mergeD acc frag) rest

/-- Embedding of `expand_fields(fields)` (source lines 726-735). -/
def expand_fields (fields : List (String × Val)) : Except String Dict :=
  expandGo Dict.nil fields

/-- The clearing loop of `Admin.edit_fields` (source lines 286-288):
`for k, v in old_data.items(): if k not in data.keys(): data[k] = ''`. -/
def addMissing : Dict → Dict → Dict
  | .nil, data => data
  | .cons k _ rest, data =>
    addMissing rest (if data.containsKey k then data else data.setKey k (.s ""))

/-- Embedding of the pure data pipeline of the POST branch of
`Admin.edit_fields` (source lines 273-301): expand the submitted flat form,
set every top-level key of the prior document that is missing from the
expansion to the empty string, then pop the reserved keys `'_id'` and
`'csrf_token'`; the result is what is handed to the storage layer
(`insert_one` / `update_one`). -/
def edit_fields_post (old_data : Dict) (forms : List (String × String)) :
    Except String Dict :=
  match expand_fields (forms.map (fun nv => (nv.1, Val.s nv.2))) with
  | .error e => .error e
  | .ok data0 =>
    let data1 := addMissing old_data data0
    let data2 := if data1.containsKey "_id" then data1.erase "_id" else data1
    let data3 := if data2.containsKey "csrf_token" then data2.erase "csrf_token" else data2
    .ok data3

/-- The walk of `get_nested_value` (source lines 790-796): at each part take
`value.get(part, '')`; a non-dict stops the walk and is returned; exhausting
all parts while inside dicts returns Python `None` (modelled as `none`). -/
def gnvGo : List String → Dict → Option Val
  | [], _ => none
  | p :: ps, d =>
    match d.get p (.s "") with
    | .d sub => gnvGo ps sub
    | v => some v

/-- Embedding of `get_nested_value(name, data)` (source lines 783-796). -/
def get_nested_value (name : String) (data : Dict) : Option Val :=
  gnvGo (pySplitDot (pyStrip name)) data

/-- A field descriptor produced by `_schema_transform`: the keys `name`,
`control`, `label`, the optional key `type`, and `value` (`none` models
Python `None`). -/
structure SchemaField where
  name : String
  control : String
  label : String
  type : Option String
  value : Option Val
deriving DecidableEq

/-- The per-line body of `_schema_transform` (source lines 815-844):
`parts = line.split(':')`; `parts[0]`/`parts[1]` give name and control (an
`IndexError` when there is no `':'` is modelled as `Except.error`); `parts[2]`
gives the label, defaulting to `name.title()`; `parts[3]` gives the optional
type; the value is the schema default `parts[4]` (or `''`) when the data
document is empty, and `get_nested_value(name, data)` otherwise. -/
def schemaLineField (data : Dict) (line : String) : Except String SchemaField :=
  match colonParts line with
  | [] => .error "IndexError: list index out of range"
  | [_] => .error "IndexError: list index out of range"
  | p0 :: p1 :: restParts =>
    let name := pyStrip p0
    let label :=
      match restParts with
      | p2 :: _ => pyStrip p2
      | [] => pyTitle name
    let ty :=
      match restParts with
      | _ :: p3 :: _ => some (pyStrip p3)
      | _ => none
    let value : Option Val :=
      if data.isNil then
        match restParts with
        | _ :: _ :: p4 :: _ => some (.s (pyStrip p4))
        | _ => some (.s "")
      else get_nested_value name data
    .ok { name := name, control := pyStrip p1, label := label, type := ty, value := value }

/-- The line loop of `_schema_transform` (source lines 814-845): empty lines
are skipped (`if line:`); any raised `IndexError` aborts the whole call and no
partial field list is returned. -/
def _schema_transform_go (data : Dict) : List String → Except String (List SchemaField)
  | [] => .ok []
  | line :: rest =>
    if line = "" then _schema_transform_go data rest
    else
      match schemaLineField data line with
      | .error e => .error e
      | .ok f =>
        match _schema_transform_go data rest with
        | .ok fs => .ok (f :: fs)
        | .error e => .error e

/-- Embedding of `_schema_transform(data, schema)` (source lines 799-845),
taking the raw schema text (the source reads it as `schema.get('schema')`)
and splitting it on newlines. -/
def _schema_transform (data : Dict) (schemaText : String) : Except String (List SchemaField) :=
  _schema_transform_go data (newlineParts schemaText)

/-- Dotted join of a path segment and a deeper path, as used when flattening
a nested document into dotted leaf paths. -/
def joinDot (k p : String) : String := k ++ "." ++ p

mutual
/-- Flattening of one document entry into dotted-leaf-path/value pairs.
Modelled from the claim's words: a scalar value yields its own path; a nested
dict yields its flattening with the outer key joined by a dot. -/
def flattenV (path : String) : Val → List (String × Val)
  | .d sub => (flattenD sub).map (fun pw => (joinDot path pw.1, pw.2))
  | v => [(path, v)]
/-- Flattening of a document into the flat form whose keys are exactly its
dotted leaf paths, in document order. Modelled from the claim's words. -/
def flattenD : Dict → List (String × Val)
  | .nil => []
  | .cons k v rest => flattenV k v ++ flattenD rest
end

mutual
/-- Well-formedness of a document value with a remaining depth budget: scalars
are always fine; a nested dict must be non-empty (an empty mapping would be a
leaf that is not a scalar) and well-formed within the budget. -/
def wfV : Nat → Val → Bool
  | _, .i _ => true
  | _, .s _ => true
  | n, .d sub => !sub.isNil && wfD n sub
/-- Well-formedness of a document with depth budget `n`: every leaf path has
at most `n` segments, keys are valid path segments (no `'.'`, invariant under
`strip()`), and no key repeats at one level. -/
def wfD : Nat → Dict → Bool
  | _, .nil => true
  | 0, .cons _ _ _ => false
  | n + 1, .cons k v rest =>
    k.data.all (fun c => !(c = '.')) && (pyStrip k = k : Bool) &&
      !rest.containsKey k && wfV n v && wfD (n + 1) rest
end

/-- A dotted path is good for budget `n` when it is `strip()`-invariant and
splits into between 1 and `n` segments. -/
def goodPath (n : Nat) (p : String) : Prop :=
  pyStrip p = p ∧ 1 ≤ (pySplitDot p).length ∧ (pySplitDot p).length ≤ n

/-- Replace the value at the first binding of `k` by the nested dict `s`, or
append the binding if `k` is absent. Characterizes merging a single-key
fragment `{k: s}` into an accumulator. -/
def setSlotD : Dict → String → Dict → Dict
  | .nil, k, sub => .cons k (.d sub) .nil
  | .cons k' v rest, k, sub =>
    if k' = k then .cons k' (.d sub) rest else .cons k' v (setSlotD rest k sub)

/-- The dict stored at key `k`, or the empty dict when `k` is absent or bound
to a scalar. Describes the starting point of the slot evolution when dotted
fragments under `k` are merged into an accumulator. -/
def dictAt (acc : Dict) (k : String) : Dict :=
  match acc.lookup k with
  | some (.d a0) => a0
  | _ => Dict.nil

/-- `LiftOk k p` states that nesting a value under the joined path `k.p`
produces exactly the single-key wrapping `{k: fragment-of-p}`. -/
def LiftOk (k p : String) : Prop :=
  ∀ w, ∃ frag, _nest_value p w = .ok frag ∧
    _nest_value (joinDot k p) w = .ok (.cons k (.d frag) .nil)

/-- Specification-side walk: `DescendsTo ps d sub` states that following the
segments `ps` from `d`, each lookup (with default `''`) yields a nested dict,
ending at `sub`. -/
def DescendsTo : List String → Dict → Dict → Prop
  | [], d, sub => sub = d
  | p :: ps, d, sub => ∃ mid, d.get p (.s "") = .d mid ∧ DescendsTo ps mid sub

/-- Specification-side predicate: every segment of the walk resolves to a
nested mapping. -/
def ResolvesAllDicts (ps : List String) (d : Dict) : Prop :=
  ∃ sub, DescendsTo ps d sub

/-- List-shaped induction principle for `Dict`. -/
def Dict.elim {motive : Dict → Prop} (hnil : motive .nil)
    (hcons : ∀ k v rest, motive rest → motive (.cons k v rest)) : ∀ d, motive d
  | .nil => hnil
  | .cons k v rest => hcons k v rest (Dict.elim hnil hcons rest)

theorem Dict.lookup_erase (b : Dict) (k k' : String) :
    (b.erase k').lookup k = if k = k' then none else b.lookup k := by
  induction b using Dict.elim with
  | hnil => simp [Dict.erase, Dict.lookup]
  | hcons k1 v rest ih =>
    by_cases h1 : k1 = k'
    · subst h1
      by_cases h2 : k = k1
      · subst h2; simp [Dict.erase, ih]
      · simp [Dict.erase, Dict.lookup, ih, h2, Ne.symm h2]
    · by_cases h2 : k = k1
      · subst h2
        simp [Dict.erase, Dict.lookup, h1]
      · simp [Dict.erase, Dict.lookup, h1, ih, Ne.symm h2]

theorem Dict.lookup_setKey_self (d : Dict) (k : String) (v : Val) :
    (d.setKey k v).lookup k = some v := by
  induction d using Dict.elim with
  | hnil => simp [Dict.setKey, Dict.lookup]
  | hcons k1 v1 rest ih =>
    by_cases h : k1 = k
    · subst h; simp [Dict.setKey, Dict.lookup]
    · simp [Dict.setKey, Dict.lookup, h, ih]

theorem Dict.lookup_setKey_ne (d : Dict) (k k' : String) (v : Val) (h : k ≠ k') :
    (d.setKey k' v).lookup k = d.lookup k := by
  induction d using Dict.elim with
  | hnil => simp [Dict.setKey, Dict.lookup, Ne.symm h]
  | hcons k1 v1 rest ih =>
    by_cases h1 : k1 = k'
    · subst h1; simp [Dict.setKey, Dict.lookup, Ne.symm h]
    · simp [Dict.setKey, Dict.lookup, h1, ih]

theorem mergeD_nil_right (d : Dict) : mergeD d Dict.nil = d := by
  induction d using Dict.elim with
  | hnil => rfl
  | hcons k v rest ih => simp [mergeD, Dict.lookup, ih]

theorem mergeD_lookup_not_left (a b : Dict) (k : String)
    (ha : a.containsKey k = false) : (mergeD a b).lookup k = b.lookup k := by
  induction a using Dict.elim generalizing b with
  | hnil => simp [mergeD]
  | hcons k1 v rest ih =>
    have hk1 : k1 ≠ k := by
      intro h; subst h
      simp [Dict.containsKey, Dict.lookup] at ha
    have ha' : rest.containsKey k = false := by
      simpa [Dict.containsKey, Dict.lookup, hk1] using ha
    cases hb : b.lookup k1 with
    | some v2 =>
      have := ih (b.erase k1) ha'
      simp [mergeD, hb, Dict.lookup, hk1, this, Dict.lookup_erase, Ne.symm hk1]
    | none =>
      simp [mergeD, hb, Dict.lookup, hk1, ih b ha']

theorem mergeD_lookup_not_right (a b : Dict) (k : String)
    (hb : b.containsKey k = false) : (mergeD a b).lookup k = a.lookup k := by
  induction a using Dict.elim generalizing b with
  | hnil =>
    simp [Dict.containsKey] at hb
    simp [mergeD, Dict.lookup, hb]
  | hcons k1 v rest ih =>
    by_cases hk1 : k1 = k
    · subst hk1
      have hbnone : b.lookup k1 = none := by
        simpa [Dict.containsKey, Option.isSome_iff_exists] using hb
      simp [mergeD, hbnone, Dict.lookup]
    · cases hblk : b.lookup k1 with
      | some v2 =>
        have hb' : (b.erase k1).containsKey k = false := by
          simp [Dict.containsKey, Dict.lookup_erase, Ne.symm hk1]
          simpa [Dict.containsKey] using hb
        simp [mergeD, hblk, Dict.lookup, hk1, ih (b.erase k1) hb',
          Dict.lookup_erase, Ne.symm hk1]
      | none =>
        simp [mergeD, hblk, Dict.lookup, hk1, ih b hb]

theorem mergeD_lookup_both (a b : Dict) (k : String) (va vb : Val)
    (ha : a.lookup k = some va) (hb : b.lookup k = some vb) :
    (mergeD a b).lookup k = some (mergeVal va vb) := by
  induction a using Dict.elim generalizing b with
  | hnil => simp [Dict.lookup] at ha
  | hcons k1 v rest ih =>
    by_cases hk1 : k1 = k
    · subst hk1
      have hv : v = va := by simpa [Dict.lookup] using ha
      subst hv
      simp [mergeD, hb, Dict.lookup]
    · have ha' : rest.lookup k = some va := by
        simpa [Dict.lookup, hk1] using ha
      cases hblk : b.lookup k1 with
      | some v2 =>
        have hb' : (b.erase k1).lookup k = some vb := by
          simp [Dict.lookup_erase, Ne.symm hk1, hb]
        simp [mergeD, hblk, Dict.lookup, hk1, ih (b.erase k1) ha' hb']
      | none =>
        simp [mergeD, hblk, Dict.lookup, hk1, ih b ha' hb]

theorem mergeVal_not_both_dicts (va vb : Val) (h : (va.isDict && vb.isDict) = false) :
    mergeVal va vb = vb := by
  cases va <;> cases vb <;> simp_all [mergeVal, Val.isDict]

/-- C2: `_merge_dicts` carries keys present on only one side unchanged,
recurses when both sides bind the key to a dict, and otherwise takes the
second dict's value outright; in particular `merge({x:1},{x:2}) == {x:2}`,
`merge({x:{y:1}},{x:{y:2}}) == {x:{y:2}}` and `merge({x:1},{x:{y:2}}) ==
{x:{y:2}}`. -/
theorem merge_override_c2 :
    (∀ a b k, a.containsKey k = true → b.containsKey k = false →
      (mergeD a b).lookup k = a.lookup k) ∧
    (∀ a b k, a.containsKey k = false → b.containsKey k = true →
      (mergeD a b).lookup k = b.lookup k) ∧
    (∀ a b k da db, a.lookup k = some (.d da) → b.lookup k = some (.d db) →
      (mergeD a b).lookup k = some (.d (mergeD da db))) ∧
    (∀ a b k va vb, a.lookup k = some va → b.lookup k = some vb →
      (va.isDict && vb.isDict) = false → (mergeD a b).lookup k = some vb) ∧
    mergeD (.cons "x" (.i 1) .nil) (.cons "x" (.i 2) .nil) = .cons "x" (.i 2) .nil ∧
    mergeD (.cons "x" (.d (.cons "y" (.i 1) .nil)) .nil)
        (.cons "x" (.d (.cons "y" (.i 2) .nil)) .nil)
      = .cons "x" (.d (.cons "y" (.i 2) .nil)) .nil ∧
    mergeD (.cons "x" (.i 1) .nil) (.cons "x" (.d (.cons "y" (.i 2) .nil)) .nil)
      = .cons "x" (.d (.cons "y" (.i 2) .nil)) .nil := by
  refine ⟨?_, ?_, ?_, ?_, rfl, rfl, rfl⟩
  · intro a b k _ hb
    exact mergeD_lookup_not_right a b k hb
  · intro a b k ha _
    exact mergeD_lookup_not_left a b k ha
  · intro a b k da db ha hb
    rw [mergeD_lookup_both a b k _ _ ha hb]
    rfl
  · intro a b k va vb ha hb hnd
    rw [mergeD_lookup_both a b k _ _ ha hb, mergeVal_not_both_dicts va vb hnd]

theorem merge_override_c2_witness :
    (mergeD (.cons "a" (.i 1) .nil) (.cons "b" (.i 2) .nil)).lookup "a" = some (.i 1) ∧
    (mergeD (.cons "a" (.i 1) .nil) (.cons "b" (.i 2) .nil)).lookup "b" = some (.i 2) ∧
    (mergeD (.cons "x" (.d (.cons "y" (.i 1) .nil)) .nil)
        (.cons "x" (.d (.cons "z" (.i 2) .nil)) .nil)).lookup "x"
      = some (.d (mergeD (.cons "y" (.i 1) .nil) (.cons "z" (.i 2) .nil))) ∧
    (mergeD (.cons "x" (.i 1) .nil) (.cons "x" (.s "two") .nil)).lookup "x"
      = some (.s "two") :=
  ⟨merge_override_c2.1 _ _ "a" rfl rfl,
   merge_override_c2.2.1 _ _ "b" rfl rfl,
   merge_override_c2.2.2.1 _ _ "x" _ _ rfl rfl,
   merge_override_c2.2.2.2.1 _ _ "x" _ _ rfl rfl rfl⟩

/-- C3: `_nest_value("a.b.c.d", v)` always fails with the depth-exceeded
error, and a dotted name of 1, 2 or 3 segments always builds exactly the
chain of single-key dicts ending in the value; in particular
`_nest_value("a.b.c", v) == {a:{b:{c:v}}}`. -/
theorem nest_depth_c3 :
    (∀ v, _nest_value "a.b.c.d" v = .error "Schmema depth exceeds maximum limit of 3") ∧
    (∀ v, _nest_value "a.b.c" v
      = .ok (.cons "a" (.d (.cons "b" (.d (.cons "c" v .nil)) .nil)) .nil)) ∧
    (∀ name v p0, pySplitDot (pyStrip name) = [p0] →
      _nest_value name v = .ok (.cons p0 v .nil)) ∧
    (∀ name v p0 p1, pySplitDot (pyStrip name) = [p0, p1] →
      _nest_value name v = .ok (.cons p0 (.d (.cons p1 v .nil)) .nil)) ∧
    (∀ name v p0 p1 p2, pySplitDot (pyStrip name) = [p0, p1, p2] →
      _nest_value name v
        = .ok (.cons p0 (.d (.cons p1 (.d (.cons p2 v .nil)) .nil)) .nil)) := by
  refine ⟨fun v => rfl, fun v => rfl, ?_, ?_, ?_⟩
  · intro name v p0 h
    simp [_nest_value, h]
  · intro name v p0 p1 h
    simp [_nest_value, h]
  · intro name v p0 p1 p2 h
    simp [_nest_value, h]

theorem nest_depth_c3_witness :
    _nest_value "z" (.s "q") = .ok (.cons "z" (.s "q") .nil) ∧
    _nest_value "y.z" (.s "q") = .ok (.cons "y" (.d (.cons "z" (.s "q") .nil)) .nil) :=
  ⟨nest_depth_c3.2.2.1 "z" (.s "q") "z" rfl,
   nest_depth_c3.2.2.2.1 "y.z" (.s "q") "y" "z" rfl⟩

theorem pySplitList_ne_nil (sep : Char) (l : List Char) : pySplitList sep l ≠ [] := by
  cases l with
  | nil => simp [pySplitList]
  | cons c rest =>
    cases h : pySplitList sep rest with
    | nil => simp [pySplitList, h]
    | cons a t =>
      simp only [pySplitList, h]
      split <;> simp

/-- C8 counterexample: a name never splits into zero segments in Python; the
empty dotted path `""` splits into one empty segment, so `_nest_value("", v)`
succeeds with `{"": v}` instead of failing with a schema-depth error. -/
theorem nest_depth_zero_c8_counterexample :
    _nest_value "" (.s "x") = .ok (.cons "" (.s "x") .nil) ∧
    ∀ msg, _nest_value "" (.s "x") ≠ .error msg := by
  refine ⟨rfl, ?_⟩
  intro msg h
  exact Except.noConfusion h

/-- C8 amended: splitting a name never yields zero segments (so the depth-0
failure case is unreachable); the empty name yields one empty segment and
`_nest_value` succeeds with `{"": v}`; names of more than 3 segments fail
with the schema-depth error. -/
theorem nest_depth_zero_c8 :
    (∀ name : String, 1 ≤ (pySplitDot name).length) ∧
    (∀ v, _nest_value "" v = .ok (.cons "" v .nil)) ∧
    (∀ name v, 4 ≤ (pySplitDot (pyStrip name)).length →
      _nest_value name v = .error "Schmema depth exceeds maximum limit of 3") := by
  refine ⟨?_, fun v => rfl, ?_⟩
  · intro name
    have h := pySplitList_ne_nil '.' name.data
    have : pySplitDot name ≠ [] := by
      simp [pySplitDot]
      exact h
    exact List.length_pos.mpr this
  · intro name v h4
    cases hs : pySplitDot (pyStrip name) with
    | nil => rw [hs] at h4; simp at h4
    | cons a t1 =>
      cases t1 with
      | nil => rw [hs] at h4; simp at h4
      | cons b t2 =>
        cases t2 with
        | nil => rw [hs] at h4; simp at h4
        | cons c t3 =>
          cases t3 with
          | nil => rw [hs] at h4; simp at h4
          | cons d t4 => simp [_nest_value, hs]

theorem nest_depth_zero_c8_witness :
    1 ≤ (pySplitDot "a.b").length ∧
    _nest_value "" (.i 7) = .ok (.cons "" (.i 7) .nil) ∧
    _nest_value "p.q.r.s" (.i 7) = .error "Schmema depth exceeds maximum limit of 3" :=
  ⟨nest_depth_zero_c8.1 "a.b", nest_depth_zero_c8.2.1 (.i 7),
   nest_depth_zero_c8.2.2 "p.q.r.s" (.i 7) (by decide)⟩

theorem Dict.containsKey_erase_self (d : Dict) (k : String) :
    (d.erase k).containsKey k = false := by
  simp [Dict.containsKey, Dict.lookup_erase]

theorem Dict.containsKey_erase_of (d : Dict) (k k' : String)
    (h : d.containsKey k = false) : (d.erase k').containsKey k = false := by
  simp [Dict.containsKey, Dict.lookup_erase]
  intro hne
  simpa [Dict.containsKey] using h

/-- C5: for every prior document and every submitted flat form, the document
produced by the POST pipeline of `Admin.edit_fields` and handed to storage
never has the identifier key `"_id"` or the forgery-protection token key
`"csrf_token"` among its keys, regardless of where those entries appeared in
the fold. -/
theorem reserved_key_stripping_c5 (old_data : Dict) (forms : List (String × String))
    (res : Dict) (h : edit_fields_post old_data forms = .ok res) :
    res.containsKey "_id" = false ∧ res.containsKey "csrf_token" = false := by
  unfold edit_fields_post at h
  cases hex : expand_fields (forms.map (fun nv => (nv.1, Val.s nv.2))) with
  | error e => rw [hex] at h; exact Except.noConfusion h
  | ok data0 =>
    rw [hex] at h
    simp only [Except.ok.injEq] at h
    subst h
    set data1 := addMissing old_data data0 with hdata1
    have hid : (if data1.containsKey "_id" then data1.erase "_id" else data1).containsKey "_id"
        = false := by
      by_cases hc : data1.containsKey "_id" = true
      · simp [hc, Dict.containsKey_erase_self]
      · simp only [Bool.not_eq_true] at hc
        simp [hc]
    set data2 := if data1.containsKey "_id" then data1.erase "_id" else data1 with hdata2
    constructor
    · by_cases hc : data2.containsKey "csrf_token" = true
      · simp [hc, Dict.containsKey_erase_of _ _ _ hid]
      · simp only [Bool.not_eq_true] at hc
        simp [hc, hid]
    · by_cases hc : data2.containsKey "csrf_token" = true
      · simp [hc, Dict.containsKey_erase_self]
      · simp only [Bool.not_eq_true] at hc
        simp [hc]

theorem reserved_key_stripping_c5_witness :
    (Dict.cons "a" (.s "1") .nil).containsKey "_id" = false ∧
    (Dict.cons "a" (.s "1") .nil).containsKey "csrf_token" = false :=
  reserved_key_stripping_c5 Dict.nil
    [("_id", "X"), ("csrf_token", "T"), ("a", "1")] (Dict.cons "a" (.s "1") .nil) rfl

theorem gnvGo_of_resolvesAllDicts (ps : List String) (d : Dict)
    (h : ResolvesAllDicts ps d) : gnvGo ps d = none := by
  induction ps generalizing d with
  | nil => rfl
  | cons p ps ih =>
    obtain ⟨sub, mid, hget, hdesc⟩ := h
    rw [gnvGo, hget]
    exact ih mid ⟨sub, hdesc⟩

theorem gnvGo_append_of_descendsTo (ps1 : List String) (d sub : Dict)
    (h : DescendsTo ps1 d sub) (ps2 : List String) :
    gnvGo (ps1 ++ ps2) d = gnvGo ps2 sub := by
  induction ps1 generalizing d with
  | nil => rw [h]; rfl
  | cons p ps ih =>
    obtain ⟨mid, hget, hdesc⟩ := h
    rw [List.cons_append, gnvGo, hget]
    exact ih mid hdesc

/-- C9: when every segment of the dotted name resolves to a nested mapping,
`get_nested_value` returns the `None` placeholder; a segment lookup that hits
an absent key returns the empty string immediately, and one that hits a
scalar returns that scalar immediately. -/
theorem value_resolver_walk_c9 :
    (∀ name d, ResolvesAllDicts (pySplitDot (pyStrip name)) d →
      get_nested_value name d = none) ∧
    (∀ name d ps1 p ps2 sub, pySplitDot (pyStrip name) = ps1 ++ p :: ps2 →
      DescendsTo ps1 d sub → sub.containsKey p = false →
      get_nested_value name d = some (.s "")) ∧
    (∀ name d ps1 p ps2 sub v, pySplitDot (pyStrip name) = ps1 ++ p :: ps2 →
      DescendsTo ps1 d sub → sub.lookup p = some v → v.isDict = false →
      get_nested_value name d = some v) := by
  refine ⟨?_, ?_, ?_⟩
  · intro name d h
    exact gnvGo_of_resolvesAllDicts _ d h
  · intro name d ps1 p ps2 sub hsegs hdesc habs
    have hnone : sub.lookup p = none := by
      simpa [Dict.containsKey] using habs
    rw [get_nested_value, hsegs, gnvGo_append_of_descendsTo ps1 d sub hdesc,
      gnvGo, Dict.get, hnone]
  · intro name d ps1 p ps2 sub v hsegs hlk hnd
    intro hvnd
    rw [get_nested_value, hsegs, gnvGo_append_of_descendsTo ps1 d sub hlk,
      gnvGo, Dict.get, hnd]
    cases v with
    | d sub2 => simp [Val.isDict] at hvnd
    | i n => rfl
    | s str => rfl

theorem value_resolver_walk_c9_witness :
    get_nested_value "a.b"
      (.cons "a" (.d (.cons "b" (.d (.cons "c" (.s "1") .nil)) .nil)) .nil) = none :=
  value_resolver_walk_c9.1 "a.b"
    (.cons "a" (.d (.cons "b" (.d (.cons "c" (.s "1") .nil)) .nil)) .nil)
    ⟨.cons "c" (.s "1") .nil,
     .cons "b" (.d (.cons "c" (.s "1") .nil)) .nil, rfl,
     .cons "c" (.s "1") .nil, rfl, rfl⟩

theorem schemaLineField_ok_shape (data : Dict) (line : String) (f : SchemaField)
    (h : schemaLineField data line = .ok f) :
    ∃ p0 p1 restParts, colonParts line = p0 :: p1 :: restParts ∧
      f.name = pyStrip p0 ∧ f.control = pyStrip p1 ∧
      f.label = (match restParts with
        | p2 :: _ => pyStrip p2
        | [] => pyTitle (pyStrip p0)) ∧
      f.type = (match restParts with
        | _ :: p3 :: _ => some (pyStrip p3)
        | _ => none) ∧
      f.value = (if data.isNil then
          match restParts with
          | _ :: _ :: p4 :: _ => some (.s (pyStrip p4))
          | _ => some (.s "")
        else get_nested_value (pyStrip p0) data) := by
  cases hp : colonParts line with
  | nil => rw [schemaLineField, hp] at h; exact Except.noConfusion h
  | cons p0 t0 =>
    cases t0 with
    | nil => rw [schemaLineField, hp] at h; exact Except.noConfusion h
    | cons p1 restParts =>
      rw [schemaLineField, hp] at h
      simp only [Except.ok.injEq] at h
      subst h
      exact ⟨p0, p1, restParts, rfl, rfl, rfl, rfl, rfl, rfl⟩

/-- C6: the schema line `"profile.name:text:Full Name"` parses to name
`"profile.name"`, control `"text"`, label `"Full Name"`; the line
`"age:number"` parses to name `"age"`, control `"number"`, label `"Age"` —
an omitted label defaults to the title-cased name; the type part is an
optional trailing part; blank lines are skipped. -/
theorem schema_parsing_c6 :
    _schema_transform Dict.nil "profile.name:text:Full Name"
      = .ok [{ name := "profile.name", control := "text", label := "Full Name",
               type := none, value := some (.s "") }] ∧
    _schema_transform Dict.nil "age:number"
      = .ok [{ name := "age", control := "number", label := "Age",
               type := none, value := some (.s "") }] ∧
    (∀ data line f, schemaLineField data line = .ok f →
      (colonParts line).length ≤ 2 → f.label = pyTitle f.name) ∧
    (∀ data line f, schemaLineField data line = .ok f →
      (colonParts line).length ≤ 3 → f.type = none) ∧
    (∀ data line f p0 p1 p2 p3 t, schemaLineField data line = .ok f →
      colonParts line = p0 :: p1 :: p2 :: p3 :: t → f.type = some (pyStrip p3)) ∧
    (∀ data rest, _schema_transform_go data ("" :: rest) = _schema_transform_go data rest) := by
  refine ⟨rfl, rfl, ?_, ?_, ?_, ?_⟩
  · intro data line f h hlen
    obtain ⟨p0, p1, restParts, hp, hname, _, hlabel, _, _⟩ :=
      schemaLineField_ok_shape data line f h
    cases restParts with
    | nil => rw [hlabel, hname]
    | cons p2 t => rw [hp] at hlen; simp at hlen
  · intro data line f h hlen
    obtain ⟨p0, p1, restParts, hp, _, _, _, htype, _⟩ :=
      schemaLineField_ok_shape data line f h
    cases restParts with
    | nil => rw [htype]
    | cons p2 t =>
      cases t with
      | nil => rw [htype]
      | cons p3 t2 => rw [hp] at hlen; simp at hlen
  · intro data line f p0 p1 p2 p3 t h hp
    obtain ⟨q0, q1, restParts, hq, _, _, _, htype, _⟩ :=
      schemaLineField_ok_shape data line f h
    rw [hp] at hq
    obtain ⟨h0, h1, hrest⟩ := by simpa using hq.symm
    subst hrest
    rw [htype]
  · intro data rest
    simp [_schema_transform_go]

theorem schema_parsing_c6_witness :
    ({ name := "age", control := "number", label := "Age",
       type := none, value := some (.s "") } : SchemaField).label
      = pyTitle ({ name := "age", control := "number", label := "Age",
                   type := none, value := some (.s "") } : SchemaField).name :=
  schema_parsing_c6.2.2.1 Dict.nil "age:number"
    { name := "age", control := "number", label := "Age",
      type := none, value := some (.s "") } rfl (by decide)

/-- C7: when the document is empty (the "new record" case), the value
resolver is bypassed and every field's value is the schema-declared default
verbatim — the fifth colon-part, stripped — or the empty string when no
default part was declared. -/
theorem default_fallback_c7 :
    (∀ line f p0 p1 p2 p3 p4 t, schemaLineField Dict.nil line = .ok f →
      colonParts line = p0 :: p1 :: p2 :: p3 :: p4 :: t →
      f.value = some (.s (pyStrip p4))) ∧
    (∀ line f, schemaLineField Dict.nil line = .ok f →
      (colonParts line).length ≤ 4 → f.value = some (.s "")) ∧
    schemaLineField Dict.nil "color:text:Color:str:red"
      = .ok { name := "color", control := "text", label := "Color",
              type := some "str", value := some (.s "red") } ∧
    schemaLineField Dict.nil "color:text"
      = .ok { name := "color", control := "text", label := "Color",
              type := none, value := some (.s "") } := by
  refine ⟨?_, ?_, rfl, rfl⟩
  · intro line f p0 p1 p2 p3 p4 t h hp
    obtain ⟨q0, q1, restParts, hq, _, _, _, _, hvalue⟩ :=
      schemaLineField_ok_shape Dict.nil line f h
    rw [hp] at hq
    obtain ⟨h0, h1, hrest⟩ := by simpa using hq.symm
    subst hrest
    rw [hvalue]
    rfl
  · intro line f h hlen
    obtain ⟨q0, q1, restParts, hq, _, _, _, _, hvalue⟩ :=
      schemaLineField_ok_shape Dict.nil line f h
    rw [hvalue]
    cases restParts with
    | nil => rfl
    | cons p2 t =>
      cases t with
      | nil => rfl
      | cons p3 t2 =>
        cases t2 with
        | nil => rfl
        | cons p4 t3 => rw [hq] at hlen; simp at hlen

theorem default_fallback_c7_witness :
    ({ name := "color", control := "text", label := "Color",
       type := some "str", value := some (Val.s "red") } : SchemaField).value
      = some (.s (pyStrip "red")) :=
  default_fallback_c7.1 "color:text:Color:str:red"
    { name := "color", control := "text", label := "Color",
      type := some "str", value := some (.s "red") }
    "color" "text" "Color" "str" "red" [] rfl rfl

/-- C10 counterexample: for the non-empty document `{a: "x"}` and the schema
line `"a.b:text:Lab:str:red"`, the dotted name `a.b` has no entry in the
document (key `a` holds the scalar `"x"`), a default `"red"` is declared, yet
the field's value is the scalar `"x"` found mid-walk — not the empty string
the claim demands. -/
theorem default_not_consulted_c10_counterexample :
    schemaLineField (.cons "a" (.s "x") .nil) "a.b:text:Lab:str:red"
      = .ok { name := "a.b", control := "text", label := "Lab",
              type := some "str", value := some (.s "x") } ∧
    (Dict.cons "a" (.s "x") .nil).lookup "a" = some (.s "x") ∧
    some (Val.s "x") ≠ some (Val.s "") := by
  refine ⟨rfl, rfl, by decide⟩

/-- C10 amended: for every non-empty document the schema-declared default is
never consulted — the field's value is always `get_nested_value` of its name —
and a field whose name's first segment is absent from the document gets the
empty string even when a default is declared; a dotted name that is absent
only because a scalar occupies a proper prefix of its path yields that scalar
instead; declared defaults take effect only when the document is exactly the
empty mapping. -/
theorem default_not_consulted_c10 :
    (∀ data line f, data.isNil = false → schemaLineField data line = .ok f →
      f.value = get_nested_value f.name data) ∧
    (∀ data line f p ps, data.isNil = false → schemaLineField data line = .ok f →
      pySplitDot (pyStrip f.name) = p :: ps → data.containsKey p = false →
      f.value = some (.s "")) := by
  constructor
  · intro data line f hne h
    obtain ⟨p0, p1, restParts, hp, hname, _, _, _, hvalue⟩ :=
      schemaLineField_ok_shape data line f h
    rw [hvalue, hne, hname]
    simp
  · intro data line f p ps hne h hsegs habs
    obtain ⟨p0, p1, restParts, hp, hname, _, _, _, hvalue⟩ :=
      schemaLineField_ok_shape data line f h
    have hlknone : data.lookup p = none := by
      simpa [Dict.containsKey] using habs
    rw [hvalue, hne]
    simp only [Bool.false_eq_true, if_false]
    rw [← hname, get_nested_value, hsegs, gnvGo, Dict.get, hlknone]

theorem default_not_consulted_c10_witness :
    ({ name := "a", control := "text", label := "A", type := none,
       value := some (Val.s "x") } : SchemaField).value
      = get_nested_value "a" (.cons "a" (.s "x") .nil) :=
  default_not_consulted_c10.1 (.cons "a" (.s "x") .nil) "a:text"
    { name := "a", control := "text", label := "A", type := none,
      value := some (.s "x") } rfl rfl

theorem Dict.containsKey_setKey_ne (d : Dict) (k k' : String) (v : Val) (h : k ≠ k') :
    (d.setKey k' v).containsKey k = d.containsKey k := by
  simp [Dict.containsKey, Dict.lookup_setKey_ne d k k' v h]

theorem addMissing_lookup_of_contains (o data : Dict) (k : String)
    (h : data.containsKey k = true) :
    (addMissing o data).lookup k = data.lookup k := by
  induction o using Dict.elim generalizing data with
  | hnil => rfl
  | hcons k1 v rest ih =>
    by_cases hc : data.containsKey k1 = true
    · simp only [addMissing, hc, if_true]
      exact ih data h
    · simp only [Bool.not_eq_true] at hc
      have hk1 : k1 ≠ k := by
        intro he; subst he; rw [h] at hc; exact Bool.noConfusion hc
      simp only [addMissing, hc, Bool.false_eq_true, if_false]
      rw [ih (data.setKey k1 (.s "")) (by rw [Dict.containsKey_setKey_ne data k k1 _ (Ne.symm hk1)]; exact h)]
      exact Dict.lookup_setKey_ne data k k1 _ (Ne.symm hk1)

theorem addMissing_lookup_of_missing (o data : Dict) (k : String)
    (ho : o.containsKey k = true) (hd : data.containsKey k = false) :
    (addMissing o data).lookup k = some (.s "") := by
  induction o using Dict.elim generalizing data with
  | hnil => simp [Dict.containsKey, Dict.lookup] at ho
  | hcons k1 v rest ih =>
    by_cases hk1 : k1 = k
    · subst hk1
      simp only [addMissing, hd, Bool.false_eq_true, if_false]
      rw [addMissing_lookup_of_contains rest (data.setKey k1 (.s "")) k1
        (by simp [Dict.containsKey, Dict.lookup_setKey_self])]
      exact Dict.lookup_setKey_self data k1 (.s "")
    · have ho' : rest.containsKey k = true := by
        simpa [Dict.containsKey, Dict.lookup, hk1] using ho
      by_cases hc : data.containsKey k1 = true
      · simp only [addMissing, hc, if_true]
        exact ih data ho' hd
      · simp only [Bool.not_eq_true] at hc
        simp only [addMissing, hc, Bool.false_eq_true, if_false]
        exact ih (data.setKey k1 (.s "")) ho'
          (by rw [Dict.containsKey_setKey_ne data k k1 _ (Ne.symm hk1)]; exact hd)

/-- C4 counterexample: with prior document `{a: {x: "old"}}` and submitted
form `{"a.y": "keep"}`, the nested prior field `a.x` is absent from the
submission but is dropped outright from the stored result `{a: {y: "keep"}}`
rather than being set to the empty string: the clearing loop only inspects
top-level keys and `a` is present in the expansion. -/
theorem clearing_on_submission_c4_counterexample :
    edit_fields_post (.cons "a" (.d (.cons "x" (.s "old") .nil)) .nil) [("a.y", "keep")]
      = .ok (.cons "a" (.d (.cons "y" (.s "keep") .nil)) .nil) ∧
    (Dict.cons "y" (.s "keep") .nil).containsKey "x" = false ∧
    (Dict.cons "y" (.s "keep") .nil).lookup "x" ≠ some (.s "") := by
  refine ⟨rfl, rfl, by decide⟩

/-- C4 amended: every top-level key of the prior document that is absent from
the expanded submission (and is not one of the reserved keys) is set to the
empty string in the result handed to storage; nested fields beneath a
top-level key that does appear in the submission are dropped, not cleared.
In particular prior `{a:"old", b:"keep"}` with submitted form `{b:"keep"}`
yields (as an unordered mapping) `{a:"", b:"keep"}`. -/
theorem clearing_on_submission_c4 :
    (∀ old_data forms data0 k,
      expand_fields (List.map (fun nv => (nv.1, Val.s nv.2)) forms) = .ok data0 →
      old_data.containsKey k = true → data0.containsKey k = false →
      ¬(k = "_id") → ¬(k = "csrf_token") →
      ∃ res, edit_fields_post old_data forms = .ok res ∧
        res.lookup k = some (.s "")) ∧
    edit_fields_post (.cons "a" (.s "old") (.cons "b" (.s "keep") .nil)) [("b", "keep")]
      = .ok (.cons "b" (.s "keep") (.cons "a" (.s "") .nil)) := by
  refine ⟨?_, rfl⟩
  intro old_data forms data0 k hex ho hd hid hcsrf
  have hmid : (addMissing old_data data0).lookup k = some (.s "") :=
    addMissing_lookup_of_missing old_data data0 k ho hd
  set data1 := addMissing old_data data0 with hdata1
  set data2 := if data1.containsKey "_id" then data1.erase "_id" else data1 with hdata2
  set data3 := if data2.containsKey "csrf_token" then data2.erase "csrf_token" else data2
    with hdata3
  have hpost : edit_fields_post old_data forms = .ok data3 := by
    unfold edit_fields_post
    rw [hex]
  refine ⟨data3, hpost, ?_⟩
  · have h2 : data2.lookup k = some (.s "") := by
      rw [hdata2]
      by_cases hc : data1.containsKey "_id" = true
      · simp only [hc, if_true]
        rw [Dict.lookup_erase, if_neg hid]
        exact hmid
      · simp only [Bool.not_eq_true] at hc
        simp only [hc, Bool.false_eq_true, if_false]
        exact hmid
    rw [hdata3]
    by_cases hc : data2.containsKey "csrf_token" = true
    · simp only [hc, if_true]
      rw [Dict.lookup_erase, if_neg hcsrf]
      exact h2
    · simp only [Bool.not_eq_true] at hc
      simp only [hc, Bool.false_eq_true, if_false]
      exact h2

theorem clearing_on_submission_c4_witness :
    ∃ res, edit_fields_post (.cons "a" (.s "old") .nil) [("b", "x")] = .ok res ∧
      res.lookup "a" = some (.s "") :=
  clearing_on_submission_c4.1 (.cons "a" (.s "old") .nil) [("b", "x")]
    (.cons "b" (.s "x") .nil) "a" rfl rfl rfl (by decide) (by decide)

theorem pySplitList_no_sep (sep : Char) (l : List Char) (h : ∀ c ∈ l, ¬(c = sep)) :
    pySplitList sep l = [l] := by
  induction l with
  | nil => rfl
  | cons c cs ih =>
    rw [pySplitList, ih (fun x hx => h x (List.mem_cons_of_mem c hx))]
    simp [h c (List.mem_cons_self c cs)]

theorem pySplitList_append_sep (sep : Char) (l1 l2 : List Char)
    (h : ∀ c ∈ l1, ¬(c = sep)) :
    pySplitList sep (l1 ++ sep :: l2) = l1 :: pySplitList sep l2 := by
  induction l1 with
  | nil =>
    cases hq : pySplitList sep l2 with
    | nil => exact absurd hq (pySplitList_ne_nil sep l2)
    | cons a t => simp [pySplitList, hq]
  | cons c cs ih =>
    rw [List.cons_append, pySplitList, ih (fun x hx => h x (List.mem_cons_of_mem c hx))]
    simp [h c (List.mem_cons_self c cs)]

theorem pySplitDot_nodot (s : String) (h : s.data.all (fun c => !(c = '.')) = true) :
    pySplitDot s = [s] := by
  rw [pySplitDot, pySplitList_no_sep '.' s.data ?hnd]
  case hnd =>
    intro c hc
    have := List.all_eq_true.mp h c hc
    simpa using this
  rfl

theorem pySplitDot_joinDot (k p : String) (hk : k.data.all (fun c => !(c = '.')) = true) :
    pySplitDot (joinDot k p) = k :: pySplitDot p := by
  rw [pySplitDot, joinDot, String.data_append, String.data_append]
  have hd : ".".data = ['.'] := rfl
  rw [hd, List.append_assoc, List.singleton_append]
  rw [pySplitList_append_sep '.' k.data p.data ?hnd]
  case hnd =>
    intro c hc
    have := List.all_eq_true.mp hk c hc
    simpa using this
  rfl

theorem head_not_space (a : Char) (as : List Char)
    (h : (a :: as).dropWhile pyIsSpace = a :: as) : pyIsSpace a = false := by
  by_contra hb
  simp only [Bool.not_eq_false] at hb
  rw [List.dropWhile_cons, if_pos (by simp [hb])] at h
  have hlen := congrArg List.length h
  have hle : (as.dropWhile pyIsSpace).length ≤ as.length :=
    (List.dropWhile_suffix (l := as) pyIsSpace).length_le
  simp only [List.length_cons] at hlen
  omega

theorem dropWhile_append_cons (l1 l2 : List Char) (c : Char)
    (hl1 : l1.dropWhile pyIsSpace = l1) (hc : pyIsSpace c = false) :
    (l1 ++ c :: l2).dropWhile pyIsSpace = l1 ++ c :: l2 := by
  cases l1 with
  | nil => simp [List.dropWhile_cons, hc]
  | cons a as =>
    have ha := head_not_space a as hl1
    simp [List.dropWhile_cons, ha]

theorem pyStripL_parts (l : List Char) (h : pyStripL l = l) :
    l.dropWhile pyIsSpace = l ∧ l.reverse.dropWhile pyIsSpace = l.reverse := by
  have h1 : (l.dropWhile pyIsSpace).length ≤ l.length :=
    (List.dropWhile_suffix (l := l) pyIsSpace).length_le
  have h2 : (((l.dropWhile pyIsSpace).reverse.dropWhile pyIsSpace)).length
      ≤ (l.dropWhile pyIsSpace).reverse.length :=
    (List.dropWhile_suffix pyIsSpace).length_le
  have hlen : (pyStripL l).length = l.length := by rw [h]
  rw [pyStripL, List.length_reverse] at hlen
  rw [List.length_reverse] at h2
  have hfront : l.dropWhile pyIsSpace = l :=
    (List.dropWhile_suffix pyIsSpace).eq_of_length (by omega)
  refine ⟨hfront, ?_⟩
  have hback := hlen
  rw [hfront] at hback
  exact (List.dropWhile_suffix pyIsSpace).eq_of_length
    (by rw [hback, List.length_reverse])

theorem pyStripL_append_dot (k p : List Char)
    (hk : pyStripL k = k) (hp : pyStripL p = p) :
    pyStripL (k ++ '.' :: p) = k ++ '.' :: p := by
  obtain ⟨hkf, _⟩ := pyStripL_parts k hk
  obtain ⟨_, hpb⟩ := pyStripL_parts p hp
  have hdot : pyIsSpace '.' = false := rfl
  have hfront : (k ++ '.' :: p).dropWhile pyIsSpace = k ++ '.' :: p :=
    dropWhile_append_cons k p '.' hkf hdot
  have hrev : (k ++ '.' :: p).reverse = p.reverse ++ '.' :: k.reverse := by
    rw [List.reverse_append, List.reverse_cons, List.append_assoc, List.singleton_append]
  have hback : (k ++ '.' :: p).reverse.dropWhile pyIsSpace = (k ++ '.' :: p).reverse := by
    rw [hrev]
    exact dropWhile_append_cons p.reverse k.reverse '.' hpb hdot
  rw [pyStripL, hfront, hback, List.reverse_reverse]

theorem pyStrip_data (s : String) : (pyStrip s).data = pyStripL s.data := rfl

theorem pyStrip_joinDot (k p : String) (hk : pyStrip k = k) (hp : pyStrip p = p) :
    pyStrip (joinDot k p) = joinDot k p := by
  have hk' : pyStripL k.data = k.data := congrArg String.data hk
  have hp' : pyStripL p.data = p.data := congrArg String.data hp
  have hdata : (joinDot k p).data = k.data ++ '.' :: p.data := by
    rw [joinDot, String.data_append, String.data_append]
    rw [show ".".data = ['.'] from rfl, List.append_assoc, List.singleton_append]
  apply String.ext
  rw [pyStrip_data, hdata, pyStripL_append_dot k.data p.data hk' hp']

theorem Dict.erase_of_not_contains (d : Dict) (k : String)
    (h : d.containsKey k = false) : d.erase k = d := by
  induction d using Dict.elim with
  | hnil => rfl
  | hcons k1 v rest ih =>
    have hk1 : ¬(k1 = k) := by
      intro he; subst he
      simp [Dict.containsKey, Dict.lookup] at h
    have h' : rest.containsKey k = false := by
      simpa [Dict.containsKey, Dict.lookup, hk1] using h
    simp [Dict.erase, hk1, ih h']

theorem lookup_setSlotD_self (acc : Dict) (k : String) (x : Dict) :
    (setSlotD acc k x).lookup k = some (.d x) := by
  induction acc using Dict.elim with
  | hnil => simp [setSlotD, Dict.lookup]
  | hcons k1 v rest ih =>
    by_cases h : k1 = k
    · subst h; simp [setSlotD, Dict.lookup]
    · simp [setSlotD, Dict.lookup, h, ih]

theorem dictAt_setSlotD (acc : Dict) (k : String) (x : Dict) :
    dictAt (setSlotD acc k x) k = x := by
  rw [dictAt, lookup_setSlotD_self]

theorem setSlotD_setSlotD (acc : Dict) (k : String) (x y : Dict) :
    setSlotD (setSlotD acc k x) k y = setSlotD acc k y := by
  induction acc using Dict.elim with
  | hnil => simp [setSlotD]
  | hcons k1 v rest ih =>
    by_cases h : k1 = k
    · subst h; simp [setSlotD]
    · simp [setSlotD, h, ih]

theorem mergeD_single_dict (acc : Dict) (k : String) (f : Dict) :
    mergeD acc (.cons k (.d f) .nil) = setSlotD acc k (mergeD (dictAt acc k) f) := by
  induction acc using Dict.elim with
  | hnil =>
    have hz : mergeD Dict.nil f = f := rfl
    simp [mergeD, setSlotD, dictAt, Dict.lookup, hz]
  | hcons k1 v rest ih =>
    by_cases h : k1 = k
    · subst h
      cases v with
      | d a0 =>
        simp [mergeD, Dict.lookup, Dict.erase, mergeD_nil_right, setSlotD, dictAt, mergeVal]
      | i n0 =>
        have hz : mergeD Dict.nil f = f := rfl
        simp [mergeD, Dict.lookup, Dict.erase, mergeD_nil_right, setSlotD, dictAt,
          mergeVal, hz]
      | s str =>
        have hz : mergeD Dict.nil f = f := rfl
        simp [mergeD, Dict.lookup, Dict.erase, mergeD_nil_right, setSlotD, dictAt,
          mergeVal, hz]
    · have hlk : (Dict.cons k (.d f) .nil).lookup k1 = none := by
        simp [Dict.lookup, Ne.symm h]
      have hat : dictAt (Dict.cons k1 v rest) k = dictAt rest k := by
        simp [dictAt, Dict.lookup, h]
      simp [mergeD, hlk, setSlotD, h, hat, ih]

theorem mergeD_cons_decomp (acc : Dict) (k : String) (x : Val) (rest2 : Dict)
    (hk : rest2.containsKey k = false) :
    mergeD acc (.cons k x rest2) = mergeD (mergeD acc (.cons k x .nil)) rest2 := by
  induction acc using Dict.elim generalizing rest2 with
  | hnil =>
    have h2 : rest2.lookup k = none := by simpa [Dict.containsKey] using hk
    simp [mergeD, Dict.lookup, h2, mergeD_nil_right]
  | hcons k1 v a ih =>
    by_cases h : k1 = k
    · subst h
      have her : (Dict.cons k1 x rest2).erase k1 = rest2 := by
        rw [Dict.erase, if_pos rfl, Dict.erase_of_not_contains rest2 k1 hk]
      have hlk2 : rest2.lookup k1 = none := by simpa [Dict.containsKey] using hk
      simp [mergeD, Dict.lookup, her, Dict.erase, mergeD_nil_right, hlk2]
      rw [Dict.erase_of_not_contains rest2 k1 hk]
    · have hlk : (Dict.cons k x rest2).lookup k1 = rest2.lookup k1 := by
        simp [Dict.lookup, Ne.symm h]
      have hlks : (Dict.cons k x .nil).lookup k1 = none := by
        simp [Dict.lookup, Ne.symm h]
      cases hr : rest2.lookup k1 with
      | some v2 =>
        have her : (Dict.cons k x rest2).erase k1 = Dict.cons k x (rest2.erase k1) := by
          rw [Dict.erase, if_neg (Ne.symm h)]
        have hk' : (rest2.erase k1).containsKey k = false :=
          Dict.containsKey_erase_of rest2 k k1 hk
        simp only [mergeD, hlk, hr, hlks, her]
        rw [ih (rest2.erase k1) hk']
      | none =>
        simp only [mergeD, hlk, hr, hlks]
        rw [ih rest2 hk]

theorem nest_single (k : String) (v : Val)
    (hknd : k.data.all (fun c => !(c = '.')) = true) (hks : pyStrip k = k) :
    _nest_value k v = .ok (.cons k v .nil) := by
  rw [_nest_value, hks, pySplitDot_nodot k hknd]

theorem liftOk_of_goodPath (k p : String)
    (hknd : k.data.all (fun c => !(c = '.')) = true) (hks : pyStrip k = k)
    (hp : goodPath 2 p) : LiftOk k p := by
  intro w
  obtain ⟨hps, hp1, hp2⟩ := hp
  have hjoin : pySplitDot (pyStrip (joinDot k p)) = k :: pySplitDot p := by
    rw [pyStrip_joinDot k p hks hps, pySplitDot_joinDot k p hknd]
  cases h1 : pySplitDot p with
  | nil => rw [h1] at hp1; simp at hp1
  | cons p0 t0 =>
    cases t0 with
    | nil =>
      refine ⟨.cons p0 w .nil, ?_, ?_⟩
      · rw [_nest_value, hps, h1]
      · rw [_nest_value, hjoin, h1]
    | cons p1 t1 =>
      cases t1 with
      | nil =>
        refine ⟨.cons p0 (.d (.cons p1 w .nil)) .nil, ?_, ?_⟩
        · rw [_nest_value, hps, h1]
        · rw [_nest_value, hjoin, h1]
      | cons p2 t2 =>
        rw [h1] at hp2
        simp at hp2

theorem expandGo_append_ok (acc a : Dict) (xs ys : List (String × Val))
    (h : expandGo acc xs = .ok a) : expandGo acc (xs ++ ys) = expandGo a ys := by
  induction xs generalizing acc with
  | nil =>
    simp only [expandGo, Except.ok.injEq] at h
    subst h
    rfl
  | cons pw xs ih =>
    obtain ⟨p, w⟩ := pw
    rw [List.cons_append]
    cases hn : _nest_value p w with
    | error e => rw [expandGo, hn] at h; exact Except.noConfusion h
    | ok frag =>
      rw [expandGo, hn] at h
      rw [expandGo, hn]
      exact ih (mergeD acc frag) h

theorem expandGo_prefixed (k : String) :
    ∀ fs : List (String × Val), (∀ pw ∈ fs, LiftOk k pw.1) → fs ≠ [] →
    ∀ acc : Dict, ∃ s, expandGo (dictAt acc k) fs = .ok s ∧
      expandGo acc (fs.map (fun pw => (joinDot k pw.1, pw.2))) = .ok (setSlotD acc k s) := by
  intro fs
  induction fs with
  | nil => intro _ hne; exact absurd rfl hne
  | cons pw fs ih =>
    intro hlift _ acc
    obtain ⟨p, w⟩ := pw
    obtain ⟨frag, hfrag, hjoin⟩ := hlift (p, w) (List.mem_cons_self _ _) w
    cases fs with
    | nil =>
      refine ⟨mergeD (dictAt acc k) frag, ?_, ?_⟩
      · simp only [expandGo, hfrag]
      · simp only [List.map_cons, List.map_nil, expandGo, hjoin]
        rw [mergeD_single_dict]
    | cons pw2 fs2 =>
      have hlift2 : ∀ x ∈ pw2 :: fs2, LiftOk k x.1 :=
        fun x hx => hlift x (List.mem_cons_of_mem _ hx)
      obtain ⟨s, hs1, hs2⟩ := ih hlift2 (by simp) (mergeD acc (.cons k (.d frag) .nil))
      have hat : dictAt (mergeD acc (.cons k (.d frag) .nil)) k
          = mergeD (dictAt acc k) frag := by
        rw [mergeD_single_dict, dictAt_setSlotD]
      refine ⟨s, ?_, ?_⟩
      · simp only [expandGo, hfrag]
        rw [← hat]
        exact hs1
      · simp only [List.map_cons, expandGo, hjoin]
        simp only [List.map_cons, expandGo] at hs2
        rw [hs2, mergeD_single_dict, setSlotD_setSlotD]

theorem goodPath_mono (m n : Nat) (p : String) (h : goodPath m p) (hmn : m ≤ n) :
    goodPath n p :=
  ⟨h.1, h.2.1, le_trans h.2.2 hmn⟩

theorem flattenD_paths_good :
    ∀ n, ∀ d, wfD n d = true → ∀ pw ∈ flattenD d, goodPath n pw.1 := by
  intro n
  induction n with
  | zero =>
    intro d hwf pw hmem
    cases d with
    | nil => simp [flattenD] at hmem
    | cons k v rest => rw [wfD] at hwf; exact Bool.noConfusion hwf
  | succ m ih =>
    intro d
    induction d using Dict.elim with
    | hnil =>
      intro _ pw hmem
      simp [flattenD] at hmem
    | hcons k v rest ihd =>
      intro hwf pw hmem
      rw [wfD] at hwf
      simp only [Bool.and_eq_true] at hwf
      obtain ⟨⟨⟨⟨hknd, hksb⟩, hnodup⟩, hwv⟩, hwrest⟩ := hwf
      have hks : pyStrip k = k := of_decide_eq_true hksb
      rw [flattenD] at hmem
      rcases List.mem_append.mp hmem with hm | hm
      · cases v with
        | i n0 =>
          simp only [flattenV, List.mem_singleton] at hm
          subst hm
          exact ⟨hks, by rw [pySplitDot_nodot k hknd]; simp, by rw [pySplitDot_nodot k hknd]; simp⟩
        | s str =>
          simp only [flattenV, List.mem_singleton] at hm
          subst hm
          exact ⟨hks, by rw [pySplitDot_nodot k hknd]; simp, by rw [pySplitDot_nodot k hknd]; simp⟩
        | d sub =>
          rw [flattenV] at hm
          obtain ⟨⟨p, w⟩, hmem2, heq⟩ := List.mem_map.mp hm
          subst heq
          rw [wfV] at hwv
          simp only [Bool.and_eq_true] at hwv
          have hgp : goodPath m p := ih sub hwv.2 (p, w) hmem2
          refine ⟨pyStrip_joinDot k p hks hgp.1, ?_, ?_⟩
          · rw [pySplitDot_joinDot k p hknd]
            simp
          · rw [pySplitDot_joinDot k p hknd]
            have := hgp.2.2
            simpa using Nat.succ_le_succ this
      · exact ihd hwrest pw hm

theorem flattenD_ne_nil :
    ∀ n, ∀ d, wfD n d = true → d.isNil = false → flattenD d ≠ [] := by
  intro n
  induction n with
  | zero =>
    intro d hwf hnn
    cases d with
    | nil => simp [Dict.isNil] at hnn
    | cons k v rest => rw [wfD] at hwf; exact Bool.noConfusion hwf
  | succ m ih =>
    intro d hwf hnn
    cases d with
    | nil => simp [Dict.isNil] at hnn
    | cons k v rest =>
      rw [wfD] at hwf
      simp only [Bool.and_eq_true] at hwf
      obtain ⟨⟨⟨⟨hknd, hksb⟩, hnodup⟩, hwv⟩, hwrest⟩ := hwf
      rw [flattenD]
      cases v with
      | i n0 => simp [flattenV]
      | s str => simp [flattenV]
      | d sub =>
        rw [wfV] at hwv
        simp only [Bool.and_eq_true, Bool.not_eq_true'] at hwv
        have hsub := ih sub hwv.2 hwv.1
        rw [flattenV]
        simp only [ne_eq, List.append_eq_nil, List.map_eq_nil_iff, not_and]
        intro habs
        exact absurd habs hsub

theorem mergeD_nil_left (d : Dict) : mergeD Dict.nil d = d := by
  simp [mergeD]

theorem expandGo_flattenD :
    ∀ n, n ≤ 3 → ∀ d, wfD n d = true →
      ∀ acc, expandGo acc (flattenD d) = .ok (mergeD acc d) := by
  intro n
  induction n with
  | zero =>
    intro _ d hwf acc
    cases d with
    | nil => simp [flattenD, expandGo, mergeD_nil_right]
    | cons k v rest => rw [wfD] at hwf; exact Bool.noConfusion hwf
  | succ m ih =>
    intro hn d
    induction d using Dict.elim with
    | hnil =>
      intro _ acc
      simp [flattenD, expandGo, mergeD_nil_right]
    | hcons k v rest ihd =>
      intro hwf acc
      rw [wfD] at hwf
      simp only [Bool.and_eq_true] at hwf
      obtain ⟨⟨⟨⟨hknd, hksb⟩, hnodupb⟩, hwv⟩, hwrest⟩ := hwf
      have hks : pyStrip k = k := of_decide_eq_true hksb
      have hnodup : rest.containsKey k = false := by
        simpa using hnodupb
      have hstep : expandGo acc (flattenV k v) = .ok (mergeD acc (.cons k v .nil)) := by
        cases v with
        | i n0 => simp only [flattenV, expandGo, nest_single k (.i n0) hknd hks]
        | s str => simp only [flattenV, expandGo, nest_single k (.s str) hknd hks]
        | d sub =>
          rw [wfV] at hwv
          simp only [Bool.and_eq_true, Bool.not_eq_true'] at hwv
          have hfs_ne : flattenD sub ≠ [] := flattenD_ne_nil m sub hwv.2 hwv.1
          have hm2 : m ≤ 2 := by omega
          have hlift : ∀ pw ∈ flattenD sub, LiftOk k pw.1 := by
            intro pw hpw
            exact liftOk_of_goodPath k pw.1 hknd hks
              (goodPath_mono m 2 pw.1 (flattenD_paths_good m sub hwv.2 pw hpw) hm2)
          obtain ⟨s, hs1, hs2⟩ := expandGo_prefixed k (flattenD sub) hlift hfs_ne acc
          have hs3 : expandGo (dictAt acc k) (flattenD sub)
              = .ok (mergeD (dictAt acc k) sub) :=
            ih (by omega) sub hwv.2 (dictAt acc k)
          rw [hs1] at hs3
          have hseq : s = mergeD (dictAt acc k) sub := Except.ok.inj hs3
          rw [flattenV, hs2, hseq, ← mergeD_single_dict]
      rw [flattenD, expandGo_append_ok acc (mergeD acc (.cons k v .nil)) _ _ hstep]
      rw [ihd hwrest (mergeD acc (.cons k v .nil))]
      rw [← mergeD_cons_decomp acc k v rest hnodup]

/-- C1 (amended): for every well-formed Document of depth at most 3 — keys
are valid path segments (no `'.'`, `strip()`-invariant), no key repeats at a
level, and every leaf is a scalar (no empty sub-mappings) — flattening it
into the flat form of its dotted leaf paths and expanding back with
`expand_fields` returns the Document unchanged. -/
theorem round_trip_c1 (d : Dict) (h : wfD 3 d = true) :
    expand_fields (flattenD d) = .ok d := by
  have hmain := expandGo_flattenD 3 (by omega) d h Dict.nil
  rw [expand_fields, hmain, mergeD_nil_left]

theorem round_trip_c1_witness :
    wfD 3 (Dict.cons "profile" (.d (.cons "name" (.s "Ann") .nil))
      (.cons "age" (.i 7) .nil)) = true ∧
    expand_fields (flattenD (Dict.cons "profile" (.d (.cons "name" (.s "Ann") .nil))
        (.cons "age" (.i 7) .nil)))
      = .ok (Dict.cons "profile" (.d (.cons "name" (.s "Ann") .nil))
        (.cons "age" (.i 7) .nil)) :=
  ⟨by decide, round_trip_c1 _ (by decide)⟩

/-- C1 counterexample: the claim as stated quantifies over every Document
with string keys; for the depth-1 Document `{"a.b": "v"}` (a key containing a
dot), the flat form is `{"a.b": "v"}` and the expansion nests it into
`{a: {b: "v"}}`, which is not equal to the original Document. -/
theorem round_trip_c1_counterexample :
    flattenD (.cons "a.b" (.s "v") .nil) = [("a.b", Val.s "v")] ∧
    expand_fields (flattenD (.cons "a.b" (.s "v") .nil))
      = .ok (.cons "a" (.d (.cons "b" (.s "v") .nil)) .nil) ∧
    Dict.cons "a" (.d (.cons "b" (.s "v") .nil)) .nil ≠ Dict.cons "a.b" (.s "v") .nil ∧
    (Dict.cons "a" (.d (.cons "b" (.s "v") .nil)) .nil).containsKey "a.b" = false := by
  refine ⟨rfl, rfl, by decide, rfl⟩
